import Mathlib

/-!
Verification of the word-ai-redliner diff/redline core.

The document text is modelled as `List Char`.  The token-map strategy of
`src/scripts/verify-word-api.js` (tokenizer regex, token-map construction,
planner passes 1 and 2, execution ordering, clean fallback) is embedded as
pure functions.  Components that live in the external `office-word-diff`
library (absent from the repository snapshot) are modelled from the spec and
marked as such in their doc comments.
-/

namespace Redliner

/-- Character classes of the tokenizer regex `(\w+|[^\w\s]+|\s+)`:
word characters, whitespace, and everything else. -/
inductive CClass where
  | word
  | space
  | punct
deriving DecidableEq, Repr

/-- Class of one character: `\w` is `[A-Za-z0-9_]`, `\s` is whitespace. -/
def charClass (c : Char) : CClass :=
  if c.isAlphanum || c = '_' then .word
  else if c.isWhitespace then .space
  else .punct

/-- The tokenizer used throughout `verifyTokenMapStrategy`: the regex
`(\w+|[^\w\s]+|\s+)` applied with `g`, i.e. the input split into maximal
runs of characters of one class. -/
def tokenize : List Char → List (List Char)
  | [] => []
  | c :: cs =>
    match tokenize cs with
    | [] => [[c]]
    | t :: ts =>
      if (t.head?.map charClass) = some (charClass c) then (c :: t) :: ts
      else [c] :: t :: ts

theorem tokenize_flatten (s : List Char) : (tokenize s).flatten = s := by
  induction s with
  | nil => rfl
  | cons c cs ih =>
    simp only [tokenize]
    cases h : tokenize cs with
    | nil =>
      simp only [h, List.flatten] at ih ⊢
      simp [← ih]
    | cons t ts =>
      rw [h] at ih
      by_cases hc : (t.head?.map charClass) = some (charClass c)
      · simp [hc, ← ih]
      · simp [hc, ← ih]

/-- A document token of the refined token map: the text of the token and the
index it is assigned in document order.  The `index` stands in for the live
range handle (`range` in the source): a range is identified by the token
slot it was resolved for. -/
structure Token where
  index : Nat
  text : List Char
deriving DecidableEq, Repr

/-- The error taxonomy of the strategy (spec section 7). -/
inductive WErr where
  | tokenResolution (tok : List Char)
  | alignment (expected : List Char) (found : List Char)
  | chunkNotFound (chunk : List Char)
deriving DecidableEq, Repr

/-- The fine token / coarse parent pairs queued for in-range search:
every coarse range text is re-tokenized with the tokenizer regex and each
fine token is paired with its coarse parent (`searchProxies` in the source;
zero-length tokens never arise since regex matches are nonempty). -/
def finePairs (coarse : List (List Char)) : List (List Char × List Char) :=
  coarse.flatMap (fun cp => (tokenize cp).map (fun t => (t, cp)))

/-- Processing of the queued search results, in order: the first fine token
whose in-range search found nothing aborts the construction
(`throw new Error("Token mapping failed ...")`).  `sf tok parent` models
whether the host search for `tok` inside `parent` returned a match. -/
def resolveTokens (sf : List Char → List Char → Bool) :
    List (List Char × List Char) → Except WErr (List (List Char))
  | [] => .ok []
  | (t, cp) :: rest =>
    if sf t cp then
      match resolveTokens sf rest with
      | .error e => .error e
      | .ok ts => .ok (t :: ts)
    else .error (.tokenResolution t)

/-- Index assignment `fineTokens.forEach((t, i) => t.index = i)`, consecutive
from `start`. -/
def indexTokens : List (List Char) → Nat → List Token
  | [], _ => []
  | t :: ts, i => ⟨i, t⟩ :: indexTokens ts (i + 1)

/-- The refined token map build of `verifyTokenMapStrategy`: coarse ranges
(space-split sub-ranges of the live range) are re-tokenized, each fine token
is resolved by in-range text search, and indices are assigned in document
order; any unresolved token aborts the whole build. -/
def buildTokenMap (coarse : List (List Char)) (sf : List Char → List Char → Bool) :
    Except WErr (List Token) :=
  match resolveTokens sf (finePairs coarse) with
  | .error e => .error e
  | .ok ts => .ok (indexTokens ts 0)

theorem resolveTokens_ok_eq (sf : List Char → List Char → Bool) :
    ∀ pairs ts, resolveTokens sf pairs = .ok ts → ts = pairs.map Prod.fst := by
  intro pairs
  induction pairs with
  | nil => intro ts h; simpa [resolveTokens] using h.symm
  | cons p rest ih =>
    intro ts h
    obtain ⟨t, cp⟩ := p
    by_cases hs : sf t cp
    · simp only [resolveTokens, hs, if_true] at h
      cases hr : resolveTokens sf rest with
      | error e => rw [hr] at h; exact absurd h (by simp)
      | ok ts' =>
        rw [hr] at h
        cases h
        simp [ih ts' hr]
    · simp [resolveTokens, hs] at h

theorem indexTokens_map_text : ∀ (ts : List (List Char)) (i : Nat),
    (indexTokens ts i).map Token.text = ts := by
  intro ts
  induction ts with
  | nil => intro i; rfl
  | cons t rest ih => intro i; simp [indexTokens, ih]

theorem indexTokens_map_index : ∀ (ts : List (List Char)) (i : Nat),
    (indexTokens ts i).map Token.index = List.range' i ts.length := by
  intro ts
  induction ts with
  | nil => intro i; rfl
  | cons t rest ih => intro i; simp [indexTokens, ih, List.range']

theorem finePairs_map_fst (coarse : List (List Char)) :
    (finePairs coarse).map Prod.fst = coarse.flatMap tokenize := by
  induction coarse with
  | nil => rfl
  | cons cp rest ih =>
    simp only [finePairs, List.flatMap_cons, List.map_append, List.map_map] at ih ⊢
    rw [show (Prod.fst ∘ fun t => (t, cp)) = (id : List Char → List Char) from rfl]
    simp only [List.map_id]
    rw [ih]

theorem flatMap_tokenize_flatten (coarse : List (List Char)) :
    (coarse.flatMap tokenize).flatten = coarse.flatten := by
  induction coarse with
  | nil => rfl
  | cons cp rest ih => simp [List.flatMap_cons, tokenize_flatten, ih]

theorem buildTokenMap_ok (coarse : List (List Char)) (sf : List Char → List Char → Bool)
    (toks : List Token) (h : buildTokenMap coarse sf = .ok toks) :
    toks = indexTokens ((finePairs coarse).map Prod.fst) 0 := by
  unfold buildTokenMap at h
  cases hr : resolveTokens sf (finePairs coarse) with
  | error e => rw [hr] at h; exact absurd h (by simp)
  | ok ts =>
    rw [hr] at h
    cases h
    rw [resolveTokens_ok_eq sf _ ts hr]

/-- The inner loop of Pass 1 for one Delete op:
`for i in 0..cnt: if (tokenIndex < fineTokens.length) { push(fineTokens[tokenIndex]); tokenIndex++ }`.
Returns the pushed tokens and the final cursor. -/
def delLoop : Nat → List Token → Nat → List Token × Nat
  | 0, _, cur => ([], cur)
  | k + 1, toks, cur =>
    if h : cur < toks.length then
      let r := delLoop k toks (cur + 1)
      (toks.get ⟨cur, h⟩ :: r.1, r.2)
    else ([], cur)

/-- Pass 1 of the planner (`DEBUG: Pass 1 - Collecting delete targets`):
walk the diff ops with a running token cursor; Equal ops advance the cursor
by their own re-tokenization count, Delete ops consume that many document
tokens into `deleteTargets`; other ops leave cursor and targets alone. -/
def collectDeleteTargets : List (Int × List Char) → List Token → Nat → List Token
  | [], _, _ => []
  | (op, chunk) :: rest, toks, cur =>
    if op = 0 then collectDeleteTargets rest toks (cur + (tokenize chunk).length)
    else if op = -1 then
      let r := delLoop (tokenize chunk).length toks cur
      r.1 ++ collectDeleteTargets rest toks r.2
    else collectDeleteTargets rest toks cur

/-- The filtered token stream of Pass 2 (`tokensAfterDeletes`): the original
tokens minus those whose index is in the deleted set. -/
def survivingTokens (toks dels : List Token) : List Token :=
  toks.filter (fun t => !((dels.map Token.index).contains t.index))

/-- An insertion operation of the plan: `anchor = some i` inserts after the
range of token `i` (`Word.InsertLocation.after`), `anchor = none` inserts
before the start of the target range (`Word.InsertLocation.before` on
`paragraph.getRange(start)`). -/
structure InsOp where
  anchor : Option Nat
  text : List Char
deriving DecidableEq, Repr

/-- The Equal-op consumption loop of Pass 2:
`while (textToConsume.length > 0 && currentTokenIdx < tokensAfterDeletes.length)`,
consuming each next surviving token if its text is a prefix of the unconsumed
Equal text and recording it as the latest anchor, raising the alignment error
(`"Map lookup failed: Token mismatch."`) otherwise.  Returns the remaining
surviving tokens and the updated anchor. -/
def consumeEq : List Token → List Char → Option Nat → Except WErr (List Token × Option Nat)
  | [], _, a => .ok ([], a)
  | t :: ts, [], a => .ok (t :: ts, a)
  | t :: ts, c :: cs, _a =>
    if t.text.isPrefixOf (c :: cs) then
      consumeEq ts ((c :: cs).drop t.text.length) (some t.index)
    else .error (.alignment (c :: cs) t.text)

/-- Pass 2 of the planner (`DEBUG: Pass 2 - Collecting insert operations`):
re-walk the diff ops against the surviving token stream; Equal ops are
consumed token-by-token via `consumeEq`, Insert ops are anchored at the most
recently consumed token (or before the range start when none was consumed
yet); Delete ops are skipped.  Returns the insert ops together with the
remaining surviving tokens and the final anchor. -/
def collectInsertOps :
    List (Int × List Char) → List Token → Option Nat →
    Except WErr (List InsOp × List Token × Option Nat)
  | [], toks, a => .ok ([], toks, a)
  | (op, chunk) :: rest, toks, a =>
    if op = 0 then
      match consumeEq toks chunk a with
      | .error e => .error e
      | .ok (toks', a') => collectInsertOps rest toks' a'
    else if op = 1 then
      match collectInsertOps rest toks a with
      | .error e => .error e
      | .ok (ops, tk, an) => .ok (⟨a, chunk⟩ :: ops, tk, an)
    else collectInsertOps rest toks a

/-- The relation `(a, b) => b.index - a.index` used to sort `deleteTargets`
descending by token index before execution. -/
def descByIndex (a b : Token) : Prop := b.index ≤ a.index

instance : DecidableRel descByIndex := fun a b => Nat.decLe b.index a.index

instance : IsTotal Token descByIndex := ⟨fun a b => Nat.le_total b.index a.index⟩

instance : IsTrans Token descByIndex := ⟨fun _ _ _ h1 h2 => Nat.le_trans h2 h1⟩

/-- `deleteTargets.sort((a, b) => b.index - a.index)`. -/
def sortDeletes (dels : List Token) : List Token := List.insertionSort descByIndex dels

/-- One step of the execution phase as issued against the host. -/
inductive TraceStep where
  | del (idx : Nat)
  | ins (anchor : Option Nat) (text : List Char)
deriving DecidableEq, Repr

/-- The sequence of mutation requests issued by the execution phase: all
deletes, sorted descending by index, then all inserts in plan order. -/
def executeTrace (dels : List Token) (insOps : List InsOp) : List TraceStep :=
  (sortDeletes dels).map (fun t => .del t.index) ++ insOps.map (fun o => .ins o.anchor o.text)

def isDelStep : TraceStep → Bool
  | .del _ => true
  | .ins _ _ => false

def stepDelIdx : TraceStep → Option Nat
  | .del i => some i
  | .ins _ _ => none

def delIndices (tr : List TraceStep) : List Nat := tr.filterMap stepDelIdx

/-- The text of the range after the committed plan (changes accepted):
before-start insertions first, then every token in document order — empty if
deleted — each followed by the insertions anchored after it. -/
def executePlan (toks dels : List Token) (ins : List InsOp) : List Char :=
  ((ins.filter (fun o => o.anchor == none)).map InsOp.text).flatten
    ++ (toks.map (fun t =>
          (if (dels.map Token.index).contains t.index then [] else t.text)
            ++ ((ins.filter (fun o => o.anchor == some t.index)).map InsOp.text).flatten)).flatten

/-- Total length of the non-Equal texts of an edit script (the quantity the
shortest-edit-script policy minimizes). -/
def diffCost (ds : List (Int × List Char)) : Nat :=
  ((ds.filter (fun p => !(p.1 == 0))).map (fun p => p.2.length)).sum

/-- Modelled from the spec: the token-level edit script underlying
`office-word-diff`'s `computeDiff` (the library is not in the repository
snapshot).  Spec section 4.1: a shortest-edit-script diff over word-aware
tokens, preferring Equal at the earliest possible position, delete before
insert, with the degenerate all-Delete+all-Insert script when nothing is
shared. -/
def diffTok : List (List Char) → List (List Char) → List (Int × List Char)
  | [], [] => []
  | [], b :: bs => ((1 : Int), b) :: diffTok [] bs
  | a :: as, [] => ((-1 : Int), a) :: diffTok as []
  | a :: as, b :: bs =>
    if a = b then ((0 : Int), a) :: diffTok as bs
    else if diffCost (((1 : Int), b) :: diffTok (a :: as) bs)
        < diffCost (((-1 : Int), a) :: diffTok as (b :: bs)) then
      ((1 : Int), b) :: diffTok (a :: as) bs
    else ((-1 : Int), a) :: diffTok as (b :: bs)
termination_by a b => a.length + b.length

/-- Modelled from the spec: run-merging of adjacent ops with the same opCode,
as in the `diff-match-patch` output consumed by the planner (one chunk per
maximal run of one op kind). -/
def coalesce : List (Int × List Char) → List (Int × List Char)
  | [] => []
  | (o, t) :: rest =>
    match coalesce rest with
    | [] => [(o, t)]
    | (o2, t2) :: rest2 =>
      if o = o2 then (o, t ++ t2) :: rest2 else (o, t) :: (o2, t2) :: rest2

/-- Modelled from the spec: `computeDiff(original, revised)` of
`office-word-diff` — an ordered list of `(opCode, text)` pairs with
`opCode ∈ {-1, 0, 1}`, over the word-aware tokenization, satisfying the
reconstruction invariants of spec section 3. -/
def computeDiff (a b : List Char) : List (Int × List Char) :=
  coalesce (diffTok (tokenize a) (tokenize b))

/-- Concatenation of the texts of all Equal and Delete ops in order: the
original-side reconstruction of a diff script. -/
def srcText : List (Int × List Char) → List Char
  | [] => []
  | (o, t) :: ds => if o = 1 then srcText ds else t ++ srcText ds

/-- Concatenation of the texts of all Equal and Insert ops in order: the
revised-side reconstruction of a diff script. -/
def tgtText : List (Int × List Char) → List Char
  | [] => []
  | (o, t) :: ds => if o = -1 then tgtText ds else t ++ tgtText ds

/-- Index of the first occurrence of `needle` in `hay` (in-range text search
returning the first match), `none` when there is no match. -/
def findFirst (needle : List Char) : List Char → Option Nat
  | [] => if needle.isPrefixOf ([] : List Char) then some 0 else none
  | c :: t =>
    if needle.isPrefixOf (c :: t) then some 0
    else (findFirst needle t).map (· + 1)

/-- Modelled from the spec: the secondary, search-anchored replay of
`office-word-diff`'s `applySentenceDiffStrategy` (the library is not in the
repository snapshot).  Spec section 4.5: walk the diff ops with a
monotonically advancing cursor (`done` is the text behind the cursor, `rem`
the text from the cursor to the end of the range); Equal and Delete chunks
are located by direct text search from the cursor and skipped or deleted,
Insert chunks are inserted at the cursor; a chunk that cannot be found is the
terminal `FallbackChunkNotFoundError`. -/
def sentenceDiffReplay : List (Int × List Char) → List Char → List Char → Except WErr (List Char)
  | [], done, rem => .ok (done ++ rem)
  | (op, chunk) :: rest, done, rem =>
    if op = 0 then
      match findFirst chunk rem with
      | none => .error (.chunkNotFound chunk)
      | some i => sentenceDiffReplay rest (done ++ rem.take i ++ chunk) (rem.drop (i + chunk.length))
    else if op = -1 then
      match findFirst chunk rem with
      | none => .error (.chunkNotFound chunk)
      | some i => sentenceDiffReplay rest (done ++ rem.take i) (rem.drop (i + chunk.length))
    else sentenceDiffReplay rest (done ++ chunk) rem

/-- The primary token-map strategy of `verifyTokenMapStrategy`: build the
refined token map, run Pass 1 and Pass 2, and execute the plan (deletes in
descending index order, then inserts) inside one tracked-changes batch; any
failure aborts the attempt before the batch is committed, leaving the range
text unchanged. -/
def primaryAttempt (diffs : List (Int × List Char)) (coarse : List (List Char))
    (sf : List Char → List Char → Bool) : Except WErr (List Char) :=
  match buildTokenMap coarse sf with
  | .error e => .error e
  | .ok toks =>
    let dels := collectDeleteTargets diffs toks 0
    match collectInsertOps diffs (survivingTokens toks dels) none with
    | .error e => .error e
    | .ok (ins, _, _) => .ok (executePlan toks dels ins)

def isErr : Except WErr (List Char) → Bool
  | .error _ => true
  | .ok _ => false

/-- `paragraph.clear()`: the range content is removed entirely. -/
def clearedRange : List Char := []

/-- The baseline-reset step of the fallback path:
`paragraph.clear(); paragraph.insertText(text1, Word.InsertLocation.start)` —
the range is cleared and the original text re-inserted verbatim. -/
def resetRange (original : List Char) : List Char := clearedRange ++ original

/-- The apply-with-fallback orchestration of `verifyTokenMapStrategy`'s
`try`/`catch`: attempt the primary token-map strategy on the range holding
`original`; on any failure, reset the range to the original text and re-apply
the change with the secondary sentence-diff replay. -/
def applyWithFallback (original revised : List Char) (coarse : List (List Char))
    (sf : List Char → List Char → Bool) : Except WErr (List Char) :=
  match primaryAttempt (computeDiff original revised) coarse sf with
  | .ok t => .ok t
  | .error _ => sentenceDiffReplay (computeDiff original revised) [] (resetRange original)

/-- JavaScript `String.prototype.trim`: strip whitespace from both ends. -/
def strTrim (s : List Char) : List Char :=
  ((s.dropWhile Char.isWhitespace).reverse.dropWhile Char.isWhitespace).reverse

/-- The observable document state touched by `handleReviewSelection`: the
selection's text and the document change-tracking mode. -/
structure DocState where
  text : List Char
  trackAll : Bool
deriving DecidableEq, Repr

/-- Taskpane state: the module-level `isProcessing` flag plus the document. -/
structure AppState where
  isProcessing : Bool
  doc : DocState
deriving DecidableEq, Repr

/-- The externally visible effects of one `handleReviewSelection` invocation,
in issue order: reading the document selection, calling the LLM, and
committing document mutation (tracked edits and change-tracking mode). -/
inductive Effect where
  | readSelection
  | callLLM
  | mutateDoc
deriving DecidableEq, Repr

/-- Modelled from the spec: the strategy entry of `office-word-diff` rejects
an empty revised text before queuing any document mutation (spec section 7:
"Input errors (empty selection, empty revised text) are rejected before any
document mutation is attempted"); the library is not in the repository
snapshot. -/
def revisedTextRejected (response : List Char) : Bool := response == []

/-- `handleReviewSelection` of `src/taskpane/taskpane.js`: re-entrancy guard
on `isProcessing`; empty prompt rejected; selection read and rejected when
empty or whitespace-only (throw caught by the outer handler); the LLM called
(`llm` is its outcome); on success the strategy applied — change-tracking
mode and tracked edits commit only at the strategy's sync, so a rejection
before that leaves the document untouched (`applyResult` is the committed
document state of a successful apply); `isProcessing` reset on every exit of
the `try`.  Returns the final state, the effect trace, and whether a
warning/error was logged. -/
def handleReviewSelection (st : AppState) (promptRaw selection : List Char)
    (llm : Except (List Char) (List Char)) (applyResult : DocState) :
    AppState × List Effect × Bool :=
  if st.isProcessing then (st, [], true)
  else if strTrim promptRaw = [] then (st, [], true)
  else if strTrim selection = [] then
    ({ st with isProcessing := false }, [.readSelection], true)
  else
    match llm with
    | .error _ => ({ st with isProcessing := false }, [.readSelection, .callLLM], true)
    | .ok response =>
      if revisedTextRejected response then
        ({ st with isProcessing := false }, [.readSelection, .callLLM], true)
      else
        ({ isProcessing := false, doc := applyResult }, [.readSelection, .callLLM, .mutateDoc], false)

theorem srcText_cons (o : Int) (t : List Char) (ds : List (Int × List Char)) :
    srcText ((o, t) :: ds) = if o = 1 then srcText ds else t ++ srcText ds := rfl

theorem tgtText_cons (o : Int) (t : List Char) (ds : List (Int × List Char)) :
    tgtText ((o, t) :: ds) = if o = -1 then tgtText ds else t ++ tgtText ds := rfl

theorem diffTok_srcText : ∀ as bs, srcText (diffTok as bs) = as.flatten := by
  intro as bs
  induction as, bs using diffTok.induct with
  | case1 => simp [diffTok, srcText]
  | case2 b bs ih => simp [diffTok, srcText_cons, ih]
  | case3 a as ih => simp [diffTok, srcText_cons, ih]
  | case4 as b bs ih => simp [diffTok, srcText_cons, ih]
  | case5 a as b bs hne hlt ih1 ih2 =>
    rw [diffTok, if_neg hne, if_pos hlt, srcText_cons]
    simp [ih1, ih2]
  | case6 a as b bs hne hlt ih1 ih2 =>
    rw [diffTok, if_neg hne, if_neg hlt, srcText_cons]
    simp [ih1, ih2]

theorem diffTok_tgtText : ∀ as bs, tgtText (diffTok as bs) = bs.flatten := by
  intro as bs
  induction as, bs using diffTok.induct with
  | case1 => simp [diffTok, tgtText]
  | case2 b bs ih => simp [diffTok, tgtText_cons, ih]
  | case3 a as ih => simp [diffTok, tgtText_cons, ih]
  | case4 as b bs ih => simp [diffTok, tgtText_cons, ih]
  | case5 a as b bs hne hlt ih1 ih2 =>
    rw [diffTok, if_neg hne, if_pos hlt, tgtText_cons]
    simp [ih1, ih2]
  | case6 a as b bs hne hlt ih1 ih2 =>
    rw [diffTok, if_neg hne, if_neg hlt, tgtText_cons]
    simp [ih1, ih2]

theorem diffTok_ops : ∀ as bs p, p ∈ diffTok as bs → p.1 = -1 ∨ p.1 = 0 ∨ p.1 = 1 := by
  intro as bs
  induction as, bs using diffTok.induct with
  | case1 => simp [diffTok]
  | case2 b bs ih =>
    intro p hp
    rw [diffTok, List.mem_cons] at hp
    rcases hp with h | h
    · simp [h]
    · exact ih p h
  | case3 a as ih =>
    intro p hp
    rw [diffTok, List.mem_cons] at hp
    rcases hp with h | h
    · simp [h]
    · exact ih p h
  | case4 as b bs ih =>
    intro p hp
    rw [diffTok, if_pos rfl, List.mem_cons] at hp
    rcases hp with h | h
    · simp [h]
    · exact ih p h
  | case5 a as b bs hne hlt ih1 ih2 =>
    intro p hp
    rw [diffTok, if_neg hne, if_pos hlt, List.mem_cons] at hp
    rcases hp with h | h
    · simp [h]
    · exact ih1 p h
  | case6 a as b bs hne hlt ih1 ih2 =>
    intro p hp
    rw [diffTok, if_neg hne, if_neg hlt, List.mem_cons] at hp
    rcases hp with h | h
    · simp [h]
    · exact ih2 p h

theorem coalesce_srcText : ∀ ds, srcText (coalesce ds) = srcText ds := by
  intro ds
  induction ds with
  | nil => rfl
  | cons p rest ih =>
    obtain ⟨o, t⟩ := p
    cases hr : coalesce rest with
    | nil =>
      rw [hr] at ih
      simp only [coalesce, hr, srcText_cons, srcText, ← ih]
    | cons q rest2 =>
      obtain ⟨o2, t2⟩ := q
      rw [hr] at ih
      simp only [coalesce, hr]
      by_cases ho : o = o2
      · subst ho
        rw [if_pos rfl, srcText_cons, srcText_cons]
        rw [srcText_cons] at ih
        by_cases h1 : o = 1
        · simp only [if_pos h1] at ih ⊢
          exact ih
        · simp only [if_neg h1] at ih ⊢
          rw [← ih, List.append_assoc]
      · rw [if_neg ho, srcText_cons, ih, srcText_cons]

theorem coalesce_tgtText : ∀ ds, tgtText (coalesce ds) = tgtText ds := by
  intro ds
  induction ds with
  | nil => rfl
  | cons p rest ih =>
    obtain ⟨o, t⟩ := p
    cases hr : coalesce rest with
    | nil =>
      rw [hr] at ih
      simp only [coalesce, hr, tgtText_cons, tgtText, ← ih]
    | cons q rest2 =>
      obtain ⟨o2, t2⟩ := q
      rw [hr] at ih
      simp only [coalesce, hr]
      by_cases ho : o = o2
      · subst ho
        rw [if_pos rfl, tgtText_cons, tgtText_cons]
        rw [tgtText_cons] at ih
        by_cases h1 : o = -1
        · simp only [if_pos h1] at ih ⊢
          exact ih
        · simp only [if_neg h1] at ih ⊢
          rw [← ih, List.append_assoc]
      · rw [if_neg ho, tgtText_cons, ih, tgtText_cons]

theorem coalesce_ops (P : Int → Prop) :
    ∀ ds, (∀ p ∈ ds, P p.1) → ∀ p ∈ coalesce ds, P p.1 := by
  intro ds
  induction ds with
  | nil => simp [coalesce]
  | cons q rest ih =>
    obtain ⟨o, t⟩ := q
    intro hall p hp
    have ho : P o := hall (o, t) (by simp)
    have hrest : ∀ p ∈ rest, P p.1 := fun p hp => hall p (by simp [hp])
    cases hr : coalesce rest with
    | nil =>
      simp only [coalesce, hr, List.mem_singleton] at hp
      subst hp
      exact ho
    | cons q2 rest2 =>
      obtain ⟨o2, t2⟩ := q2
      simp only [coalesce, hr] at hp
      by_cases h2 : o = o2
      · rw [if_pos h2] at hp
        rcases List.mem_cons.mp hp with h | h
        · subst h; exact ho
        · exact ih hrest p (by rw [hr]; exact List.mem_cons_of_mem _ h)
      · rw [if_neg h2] at hp
        rcases List.mem_cons.mp hp with h | h
        · subst h; exact ho
        · exact ih hrest p (by rw [hr]; exact h)

/-- Claim C3: for every pair of strings, `computeDiff` returns an ordered
sequence of `(opCode, text)` pairs with `opCode ∈ {-1, 0, 1}` such that the
texts of the Equal and Delete ops concatenate in order to the original string
and the texts of the Equal and Insert ops concatenate in order to the revised
string; the function is total and never fails. -/
theorem computeDiff_round_trip (a b : List Char) :
    (∀ p ∈ computeDiff a b, p.1 = -1 ∨ p.1 = 0 ∨ p.1 = 1)
      ∧ srcText (computeDiff a b) = a ∧ tgtText (computeDiff a b) = b := by
  refine ⟨?_, ?_, ?_⟩
  · exact coalesce_ops (fun o => o = -1 ∨ o = 0 ∨ o = 1) _ (diffTok_ops (tokenize a) (tokenize b))
  · rw [computeDiff, coalesce_srcText, diffTok_srcText, tokenize_flatten]
  · rw [computeDiff, coalesce_tgtText, diffTok_tgtText, tokenize_flatten]

theorem computeDiff_opsWF (a b : List Char) :
    ∀ p ∈ computeDiff a b, p.1 = -1 ∨ p.1 = 0 ∨ p.1 = 1 :=
  coalesce_ops (fun o => o = -1 ∨ o = 0 ∨ o = 1) _ (diffTok_ops (tokenize a) (tokenize b))

theorem computeDiff_srcText (a b : List Char) : srcText (computeDiff a b) = a := by
  rw [computeDiff, coalesce_srcText, diffTok_srcText, tokenize_flatten]

theorem computeDiff_tgtText (a b : List Char) : tgtText (computeDiff a b) = b := by
  rw [computeDiff, coalesce_tgtText, diffTok_tgtText, tokenize_flatten]

theorem findFirst_of_isPrefixOf (needle hay : List Char)
    (h : needle.isPrefixOf hay = true) : findFirst needle hay = some 0 := by
  cases hay with
  | nil => simp [findFirst, h]
  | cons c t => simp [findFirst, h]

theorem sentenceDiffReplay_ok :
    ∀ (ds : List (Int × List Char)) (done rem : List Char),
      (∀ p ∈ ds, p.1 = -1 ∨ p.1 = 0 ∨ p.1 = 1) → rem = srcText ds →
      sentenceDiffReplay ds done rem = .ok (done ++ tgtText ds) := by
  intro ds
  induction ds with
  | nil =>
    intro done rem _ hrem
    simp [sentenceDiffReplay, hrem, srcText, tgtText]
  | cons p rest ih =>
    intro done rem hwf hrem
    obtain ⟨o, chunk⟩ := p
    have hwfrest : ∀ p ∈ rest, p.1 = -1 ∨ p.1 = 0 ∨ p.1 = 1 :=
      fun p hp => hwf p (List.mem_cons_of_mem _ hp)
    rcases hwf (o, chunk) (by simp) with ho | ho | ho
    · -- Delete op: the chunk is the prefix of the remaining original text
      subst ho
      have hrem' : rem = chunk ++ srcText rest := by simpa [srcText_cons] using hrem
      have hpre : chunk.isPrefixOf rem = true := by
        rw [hrem', List.isPrefixOf_iff_prefix]
        exact List.prefix_append _ _
      simp only [sentenceDiffReplay, findFirst_of_isPrefixOf _ _ hpre]
      norm_num
      rw [hrem', List.drop_left, tgtText_cons]
      norm_num
      exact ih done _ hwfrest rfl
    · -- Equal op: the chunk is the prefix of the remaining original text
      subst ho
      have hrem' : rem = chunk ++ srcText rest := by simpa [srcText_cons] using hrem
      have hpre : chunk.isPrefixOf rem = true := by
        rw [hrem', List.isPrefixOf_iff_prefix]
        exact List.prefix_append _ _
      simp only [sentenceDiffReplay, findFirst_of_isPrefixOf _ _ hpre]
      norm_num
      rw [hrem', List.drop_left, tgtText_cons]
      norm_num
      rw [ih (done ++ chunk) _ hwfrest rfl, List.append_assoc]
    · -- Insert op: the chunk is inserted at the cursor, the original text
      -- beyond the cursor is untouched
      subst ho
      have hrem' : rem = srcText rest := by simpa [srcText_cons] using hrem
      simp only [sentenceDiffReplay]
      norm_num
      rw [tgtText_cons]
      norm_num
      rw [ih (done ++ chunk) _ hwfrest hrem', List.append_assoc]

/-- Claim C1: whenever the primary token-map strategy over a range holding
the original text fails (token resolution, Pass 2 alignment, or execution),
the fallback path first resets the range by clearing it and re-inserting the
original text verbatim, then runs the secondary sentence-diff replay on that
clean baseline; the whole apply-with-fallback operation therefore returns
with the range text equal to the revised reconstruction (in particular it is
in `{revised, original}` and never an intermediate mix of the planned
edits). -/
theorem applyWithFallback_atomic_outcome (original revised : List Char)
    (coarse : List (List Char)) (sf : List Char → List Char → Bool)
    (hfail : isErr (primaryAttempt (computeDiff original revised) coarse sf) = true) :
    applyWithFallback original revised coarse sf
        = sentenceDiffReplay (computeDiff original revised) [] (resetRange original)
      ∧ resetRange original = original
      ∧ applyWithFallback original revised coarse sf = .ok revised := by
  cases hp : primaryAttempt (computeDiff original revised) coarse sf with
  | ok t => rw [hp] at hfail; exact absurd hfail (by simp [isErr])
  | error e =>
    have h1 : applyWithFallback original revised coarse sf
        = sentenceDiffReplay (computeDiff original revised) [] (resetRange original) := by
      rw [applyWithFallback, hp]
    have h2 : resetRange original = original := rfl
    refine ⟨h1, h2, ?_⟩
    rw [h1, h2]
    have := sentenceDiffReplay_ok (computeDiff original revised) [] original
      (computeDiff_opsWF original revised) (computeDiff_srcText original revised).symm
    rw [this, List.nil_append, computeDiff_tgtText]

theorem applyWithFallback_atomic_outcome_witness :
    applyWithFallback (['a'] : List Char) (['b'] : List Char) [['a']] (fun _ _ => false)
      = .ok ['b'] :=
  (applyWithFallback_atomic_outcome ['a'] ['b'] [['a']] (fun _ _ => false) (by decide)).2.2

theorem consumeEq_mismatch (t : Token) (ts : List Token) (c : List Char) (a : Option Nat)
    (hne : c ≠ []) (hnp : t.text.isPrefixOf c = false) :
    consumeEq (t :: ts) c a = .error (.alignment c t.text) := by
  cases c with
  | nil => exact absurd rfl hne
  | cons x xs => simp [consumeEq, hnp]

theorem collectInsertOps_consumeEq_error (c : List Char) (rest : List (Int × List Char))
    (toks : List Token) (a : Option Nat) (e : WErr) (h : consumeEq toks c a = .error e) :
    collectInsertOps ((0, c) :: rest) toks a = .error e := by
  simp [collectInsertOps, h]

/-- Claim C2: in Pass 2, walked against the surviving token stream, an Equal
op whose unconsumed text is non-empty and which faces a next surviving token
whose text is not a prefix of that unconsumed text raises the alignment
error immediately (conjuncts 1 and 2: at the head of the chunk and from any
point of the consumption loop); the resulting plan carries no insert ops at
all (the result is the bare error), and the whole primary attempt returns
that error without executing anything (conjunct 3). -/
theorem pass2_alignment_gate :
    (∀ (c : List Char) (rest : List (Int × List Char)) (t : Token) (ts : List Token)
        (a : Option Nat), c ≠ [] → t.text.isPrefixOf c = false →
        consumeEq (t :: ts) c a = .error (.alignment c t.text)
          ∧ collectInsertOps ((0, c) :: rest) (t :: ts) a
              = .error (.alignment c t.text))
      ∧ (∀ (c : List Char) (rest : List (Int × List Char)) (toks : List Token)
          (a : Option Nat) (e : WErr), consumeEq toks c a = .error e →
          collectInsertOps ((0, c) :: rest) toks a = .error e)
      ∧ (∀ (diffs : List (Int × List Char)) (coarse : List (List Char))
          (sf : List Char → List Char → Bool) (toks : List Token) (e : WErr),
          buildTokenMap coarse sf = .ok toks →
          collectInsertOps diffs
              (survivingTokens toks (collectDeleteTargets diffs toks 0)) none = .error e →
          primaryAttempt diffs coarse sf = .error e) := by
  refine ⟨?_, ?_, ?_⟩
  · intro c rest t ts a hne hnp
    have h := consumeEq_mismatch t ts c a hne hnp
    exact ⟨h, collectInsertOps_consumeEq_error c rest (t :: ts) a _ h⟩
  · intro c rest toks a e h
    exact collectInsertOps_consumeEq_error c rest toks a e h
  · intro diffs coarse sf toks e hb hp
    rw [primaryAttempt, hb]
    simp only [hp]

theorem pass2_alignment_gate_witness :
    consumeEq [⟨0, ['x']⟩] ['y'] none = .error (.alignment ['y'] ['x'])
      ∧ collectInsertOps [((0 : Int), ['y'])] [⟨0, ['x']⟩] none
          = .error (.alignment ['y'] ['x']) :=
  pass2_alignment_gate.1 ['y'] [] ⟨0, ['x']⟩ [] none (by decide) (by decide)

theorem resolveTokens_err (sf : List Char → List Char → Bool) :
    ∀ pairs : List (List Char × List Char), (∃ p ∈ pairs, sf p.1 p.2 = false) →
      ∃ tok cp, (tok, cp) ∈ pairs ∧ sf tok cp = false
        ∧ resolveTokens sf pairs = .error (.tokenResolution tok) := by
  intro pairs
  induction pairs with
  | nil => rintro ⟨p, hp, -⟩; exact absurd hp (List.not_mem_nil p)
  | cons q rest ih =>
    obtain ⟨t, c⟩ := q
    rintro ⟨p, hp, hpf⟩
    by_cases hs : sf t c
    · have hprest : p ∈ rest := by
        rcases List.mem_cons.mp hp with h | h
        · subst h; rw [hs] at hpf; cases hpf
        · exact h
      obtain ⟨tok, cp, hmem, hf, herr⟩ := ih ⟨p, hprest, hpf⟩
      exact ⟨tok, cp, List.mem_cons_of_mem _ hmem, hf, by simp [resolveTokens, hs, herr]⟩
    · refine ⟨t, c, by simp, by simpa using hs, ?_⟩
      simp [resolveTokens, hs]

/-- Claim C8: if any fine token's text cannot be found by in-range search
inside its coarse parent, the token-map build fails with an error naming an
unresolved token, no token map is produced (`buildTokenMap` returns the bare
error, never a partial table), and the primary attempt returns the same
error for every diff script — no plan is built or executed. -/
theorem token_resolution_atomicity (coarse : List (List Char))
    (sf : List Char → List Char → Bool)
    (h : ∃ p ∈ finePairs coarse, sf p.1 p.2 = false) :
    ∃ tok cp, (tok, cp) ∈ finePairs coarse ∧ sf tok cp = false
      ∧ buildTokenMap coarse sf = .error (.tokenResolution tok)
      ∧ ∀ diffs, primaryAttempt diffs coarse sf = .error (.tokenResolution tok) := by
  obtain ⟨tok, cp, hmem, hf, herr⟩ := resolveTokens_err sf (finePairs coarse) h
  have hb : buildTokenMap coarse sf = .error (.tokenResolution tok) := by
    rw [buildTokenMap, herr]
  exact ⟨tok, cp, hmem, hf, hb, fun diffs => by rw [primaryAttempt, hb]⟩

theorem token_resolution_atomicity_witness :
    ∃ tok cp, (tok, cp) ∈ finePairs [['a', 'b']]
      ∧ (fun (_ _ : List Char) => false) tok cp = false
      ∧ buildTokenMap [['a', 'b']] (fun _ _ => false) = .error (.tokenResolution tok)
      ∧ ∀ diffs, primaryAttempt diffs [['a', 'b']] (fun _ _ => false)
          = .error (.tokenResolution tok) :=
  token_resolution_atomicity [['a', 'b']] (fun _ _ => false) (by decide)

theorem indexTokens_length (ts : List (List Char)) (i : Nat) :
    (indexTokens ts i).length = ts.length := by
  have := indexTokens_map_text ts i
  calc (indexTokens ts i).length = ((indexTokens ts i).map Token.text).length := by
        rw [List.length_map]
    _ = ts.length := by rw [this]

/-- Claim C4: splitting any string into maximal runs of the tokenizer regex
reproduces the string exactly when the tokens are concatenated in order; and
a token map built over a live range (fine tokens of the whitespace-split
coarse ranges, indices assigned consecutively `0..N-1` in document order)
has token texts that concatenate in index order to the range's full text
(the concatenation of the coarse range texts). -/
theorem tokenMap_completeness :
    (∀ s : List Char, (tokenize s).flatten = s)
      ∧ (∀ (coarse : List (List Char)) (sf : List Char → List Char → Bool)
          (toks : List Token), buildTokenMap coarse sf = .ok toks →
          (toks.map Token.text).flatten = coarse.flatten
            ∧ toks.map Token.index = List.range toks.length) := by
  refine ⟨tokenize_flatten, ?_⟩
  intro coarse sf toks h
  have he := buildTokenMap_ok coarse sf toks h
  constructor
  · rw [he, indexTokens_map_text, finePairs_map_fst, flatMap_tokenize_flatten]
  · rw [he, indexTokens_map_index, indexTokens_length, List.range_eq_range']

theorem tokenMap_completeness_witness :
    (([⟨0, ['a']⟩, ⟨1, [' ']⟩, ⟨2, ['b']⟩] : List Token).map Token.text).flatten
        = ([['a', ' '], ['b']] : List (List Char)).flatten
      ∧ ([⟨0, ['a']⟩, ⟨1, [' ']⟩, ⟨2, ['b']⟩] : List Token).map Token.index
          = List.range ([⟨0, ['a']⟩, ⟨1, [' ']⟩, ⟨2, ['b']⟩] : List Token).length :=
  tokenMap_completeness.2 [['a', ' '], ['b']] (fun _ _ => true)
    [⟨0, ['a']⟩, ⟨1, [' ']⟩, ⟨2, ['b']⟩] rfl

theorem delLoop_eq : ∀ (cnt : Nat) (toks : List Token) (cur : Nat),
    delLoop cnt toks cur
      = ((toks.drop cur).take cnt, cur + min cnt (toks.length - cur)) := by
  intro cnt
  induction cnt with
  | zero =>
    intro toks cur
    simp [delLoop]
  | succ k ih =>
    intro toks cur
    by_cases h : cur < toks.length
    · have hd : toks.drop cur = toks[cur] :: toks.drop (cur + 1) :=
        List.drop_eq_getElem_cons h
      simp only [delLoop, dif_pos h, ih toks (cur + 1), hd, List.take_succ_cons]
      refine Prod.ext ?_ ?_
      · simp [List.get_eq_getElem]
      · simp only []
        omega
    · have hd : toks.drop cur = [] := List.drop_eq_nil_of_le (Nat.le_of_not_lt h)
      simp only [delLoop, dif_neg h, hd, List.take_nil]
      refine Prod.ext rfl ?_
      simp only []
      omega

/-- Claim C6 as stated is false at a concrete input: a Delete op does not
always append exactly as many tokens as its own re-tokenization yields — with
an empty token table, the op `(-1, "a")` re-tokenizes to one token but
appends zero tokens to `deleteTargets` (the per-iteration bound guard of
Pass 1 caps the count). -/
theorem pass1_exact_count_counterexample :
    collectDeleteTargets [((-1 : Int), ['a'])] [] 0 = []
      ∧ (tokenize ['a']).length = 1 := by
  exact ⟨rfl, rfl⟩

/-- Claim C6, amended: every Equal op advances the Pass 1 cursor by exactly
the number of tokens its text re-tokenizes to; every Delete op appends the
next consecutive document tokens starting at the cursor, capped at the
number of tokens remaining (exactly `min count (N - cursor)` of them, which
is exactly `count` whenever `cursor + count ≤ N`), advancing the cursor past
each appended token; no other op kind changes the cursor or the targets. -/
theorem pass1_delete_step_capped :
    (∀ (c : List Char) (rest : List (Int × List Char)) (toks : List Token) (cur : Nat),
        collectDeleteTargets (((0 : Int), c) :: rest) toks cur
          = collectDeleteTargets rest toks (cur + (tokenize c).length))
      ∧ (∀ (c : List Char) (rest : List (Int × List Char)) (toks : List Token) (cur : Nat),
          collectDeleteTargets (((-1 : Int), c) :: rest) toks cur
            = (toks.drop cur).take (tokenize c).length
                ++ collectDeleteTargets rest toks
                    (cur + min (tokenize c).length (toks.length - cur)))
      ∧ (∀ (op : Int) (c : List Char) (rest : List (Int × List Char)) (toks : List Token)
          (cur : Nat), op ≠ 0 → op ≠ -1 →
          collectDeleteTargets ((op, c) :: rest) toks cur
            = collectDeleteTargets rest toks cur)
      ∧ (∀ (cnt cur : Nat) (toks : List Token), cur + cnt ≤ toks.length →
          ((toks.drop cur).take cnt).length = cnt) := by
  refine ⟨?_, ?_, ?_, ?_⟩
  · intro c rest toks cur
    simp [collectDeleteTargets]
  · intro c rest toks cur
    simp only [collectDeleteTargets, delLoop_eq]
    norm_num
  · intro op c rest toks cur h0 h1
    simp [collectDeleteTargets, h0, h1]
  · intro cnt cur toks h
    simp only [List.length_take, List.length_drop]
    omega

theorem pass1_delete_step_capped_witness :
    collectDeleteTargets [((5 : Int), ['a'])] [] 0
        = collectDeleteTargets [] ([] : List Token) 0
      ∧ ((([⟨0, ['a']⟩] : List Token).drop 0).take 1).length = 1 :=
  ⟨pass1_delete_step_capped.2.2.1 5 ['a'] [] [] 0 (by decide) (by decide),
   pass1_delete_step_capped.2.2.2 1 0 [⟨0, ['a']⟩] (by decide)⟩

theorem indexTokens_drop : ∀ (n : Nat) (ts : List (List Char)) (s : Nat),
    (indexTokens ts s).drop n = indexTokens (ts.drop n) (s + n) := by
  intro n
  induction n with
  | zero => intro ts s; simp
  | succ m ih =>
    intro ts s
    cases ts with
    | nil => simp [indexTokens]
    | cons t rest =>
      simp only [indexTokens, List.drop_succ_cons, ih rest (s + 1)]
      congr 1
      omega

theorem indexTokens_take : ∀ (n : Nat) (ts : List (List Char)) (s : Nat),
    (indexTokens ts s).take n = indexTokens (ts.take n) s := by
  intro n
  induction n with
  | zero => intro ts s; simp [indexTokens]
  | succ m ih =>
    intro ts s
    cases ts with
    | nil => simp [indexTokens]
    | cons t rest => simp [indexTokens, List.take_succ_cons, ih rest (s + 1)]

theorem mem_indexTokens : ∀ (ts : List (List Char)) (s : Nat) (t : Token),
    t ∈ indexTokens ts s → s ≤ t.index ∧ t.index < s + ts.length := by
  intro ts
  induction ts with
  | nil => intro s t h; exact absurd h (List.not_mem_nil t)
  | cons x rest ih =>
    intro s t h
    rcases List.mem_cons.mp h with h | h
    · subst h
      simp
    · have := ih (s + 1) t h
      constructor <;> [omega; (simp only [List.length_cons]; omega)]

theorem pairwise_indexTokens : ∀ (ts : List (List Char)) (s : Nat),
    List.Pairwise (fun a b => a.index < b.index) (indexTokens ts s) := by
  intro ts
  induction ts with
  | nil => intro s; exact List.Pairwise.nil
  | cons x rest ih =>
    intro s
    refine List.pairwise_cons.mpr ⟨?_, ih (s + 1)⟩
    intro t ht
    have := (mem_indexTokens rest (s + 1) t ht).1
    simp only []
    omega

theorem pass1_bounds : ∀ (diffs : List (Int × List Char)) (ts : List (List Char))
    (s cur : Nat),
    (∀ t ∈ collectDeleteTargets diffs (indexTokens ts s) cur, s + cur ≤ t.index)
      ∧ List.Pairwise (fun a b => a.index < b.index)
          (collectDeleteTargets diffs (indexTokens ts s) cur) := by
  intro diffs
  induction diffs with
  | nil => intro ts s cur; exact ⟨by simp [collectDeleteTargets], by simp [collectDeleteTargets]⟩
  | cons p rest ih =>
    intro ts s cur
    obtain ⟨op, chunk⟩ := p
    by_cases h0 : op = 0
    · subst h0
      simp only [collectDeleteTargets, if_pos rfl]
      refine ⟨fun t ht => ?_, (ih ts s _).2⟩
      have := (ih ts s (cur + (tokenize chunk).length)).1 t ht
      omega
    · by_cases h1 : op = -1
      · subst h1
        simp only [collectDeleteTargets, if_neg h0, if_pos rfl, delLoop_eq,
          indexTokens_length]
        set cnt := (tokenize chunk).length with hcnt
        set m := min cnt (ts.length - cur) with hm
        have hslice : ((indexTokens ts s).drop cur).take cnt
            = indexTokens ((ts.drop cur).take cnt) (s + cur) := by
          rw [indexTokens_drop, indexTokens_take]
        have hslen : ((ts.drop cur).take cnt).length = m := by
          simp only [List.length_take, List.length_drop, hm]
        constructor
        · intro t ht
          rcases List.mem_append.mp ht with h | h
          · rw [hslice] at h
            exact (mem_indexTokens _ _ t h).1
          · have := (ih ts s (cur + m)).1 t h
            omega
        · refine List.pairwise_append.mpr ⟨?_, (ih ts s (cur + m)).2, ?_⟩
          · rw [hslice]; exact pairwise_indexTokens _ _
          · intro a ha b hb
            rw [hslice] at ha
            have hau := (mem_indexTokens _ _ a ha).2
            rw [hslen] at hau
            have hbl := (ih ts s (cur + m)).1 b hb
            omega
      · simp only [collectDeleteTargets, if_neg h0, if_neg h1]
        refine ⟨fun t ht => (ih ts s cur).1 t ht, (ih ts s cur).2⟩

theorem filterMap_stepDelIdx_delPart (l : List Token) :
    (l.map (fun t => TraceStep.del t.index)).filterMap stepDelIdx = l.map Token.index := by
  induction l with
  | nil => rfl
  | cons t rest ih =>
    rw [List.map_cons, List.filterMap_cons]
    exact congrArg (t.index :: ·) ih

theorem filterMap_stepDelIdx_insPart (l : List InsOp) :
    (l.map (fun o => TraceStep.ins o.anchor o.text)).filterMap stepDelIdx = [] := by
  induction l with
  | nil => rfl
  | cons o rest ih =>
    rw [List.map_cons, List.filterMap_cons]
    exact ih

theorem pass1_pairwise_lt (coarse : List (List Char)) (sf : List Char → List Char → Bool)
    (toks : List Token) (diffs : List (Int × List Char))
    (hb : buildTokenMap coarse sf = .ok toks) :
    List.Pairwise (fun a b => a.index < b.index) (collectDeleteTargets diffs toks 0) := by
  rw [buildTokenMap_ok coarse sf toks hb]
  exact (pass1_bounds diffs _ 0 0).2

/-- Claim C5: within one plan execution every delete operation is issued
before any insert operation, and the issued delete sequence — `deleteTargets`
sorted descending before execution — is strictly descending by original token
index, so it contains no repeated index. -/
theorem execution_delete_ordering (coarse : List (List Char))
    (sf : List Char → List Char → Bool) (toks : List Token)
    (diffs : List (Int × List Char)) (ins : List InsOp) (tk : List Token)
    (an : Option Nat) (hb : buildTokenMap coarse sf = .ok toks)
    (hp : collectInsertOps diffs
        (survivingTokens toks (collectDeleteTargets diffs toks 0)) none
          = .ok (ins, tk, an)) :
    (∃ dpart ipart, executeTrace (collectDeleteTargets diffs toks 0) ins = dpart ++ ipart
        ∧ (∀ x ∈ dpart, isDelStep x = true) ∧ (∀ x ∈ ipart, isDelStep x = false))
      ∧ List.Chain' (fun i j => j < i)
          (delIndices (executeTrace (collectDeleteTargets diffs toks 0) ins)) := by
  set dels := collectDeleteTargets diffs toks 0 with hdels
  have hsplit : executeTrace dels ins
      = ((sortDeletes dels).map (fun t => TraceStep.del t.index))
        ++ (ins.map (fun o => TraceStep.ins o.anchor o.text)) := rfl
  constructor
  · refine ⟨(sortDeletes dels).map (fun t => TraceStep.del t.index),
      ins.map (fun o => TraceStep.ins o.anchor o.text), hsplit, ?_, ?_⟩
    · intro x hx
      obtain ⟨t, -, ht⟩ := List.mem_map.mp hx
      rw [← ht]
      rfl
    · intro x hx
      obtain ⟨o, -, ho⟩ := List.mem_map.mp hx
      rw [← ho]
      rfl
  · have hlt : List.Pairwise (fun a b => a.index < b.index) dels :=
      pass1_pairwise_lt coarse sf toks diffs hb
    have hperm : List.Perm (sortDeletes dels) dels :=
      List.perm_insertionSort descByIndex dels
    have hsorted : List.Pairwise descByIndex (sortDeletes dels) :=
      List.sorted_insertionSort descByIndex dels
    have hne : List.Pairwise (fun a b : Token => a.index ≠ b.index) dels := by
      refine hlt.imp ?_
      intro a b h
      exact Nat.ne_of_lt h
    have hnodup : (dels.map Token.index).Nodup := by
      refine List.Pairwise.map Token.index ?_ hne
      intro a b h
      exact h
    have hnodup2 : ((sortDeletes dels).map Token.index).Nodup :=
      ((hperm.map Token.index).nodup_iff).mpr hnodup
    have hne2 : List.Pairwise (fun a b : Token => a.index ≠ b.index) (sortDeletes dels) :=
      List.pairwise_map.mp hnodup2
    have hdesc : List.Pairwise (fun a b : Token => b.index < a.index) (sortDeletes dels) :=
      (hsorted.and hne2).imp (fun h => Nat.lt_of_le_of_ne h.1 (Ne.symm h.2))
    have heq : delIndices (executeTrace dels ins) = (sortDeletes dels).map Token.index := by
      rw [executeTrace, delIndices, List.filterMap_append]
      rw [filterMap_stepDelIdx_delPart, filterMap_stepDelIdx_insPart, List.append_nil]
    rw [heq]
    exact (List.pairwise_map.mpr hdesc).chain'

theorem execution_delete_ordering_witness :
    (∃ dpart ipart,
        executeTrace
            (collectDeleteTargets
              [((-1 : Int), ['a']), ((0 : Int), [' ']), ((1 : Int), ['z', 'z']),
                ((0 : Int), ['b'])]
              [⟨0, ['a']⟩, ⟨1, [' ']⟩, ⟨2, ['b']⟩] 0)
            [⟨some 1, ['z', 'z']⟩]
          = dpart ++ ipart
        ∧ (∀ x ∈ dpart, isDelStep x = true) ∧ (∀ x ∈ ipart, isDelStep x = false))
      ∧ List.Chain' (fun i j => j < i)
          (delIndices
            (executeTrace
              (collectDeleteTargets
                [((-1 : Int), ['a']), ((0 : Int), [' ']), ((1 : Int), ['z', 'z']),
                  ((0 : Int), ['b'])]
                [⟨0, ['a']⟩, ⟨1, [' ']⟩, ⟨2, ['b']⟩] 0)
              [⟨some 1, ['z', 'z']⟩])) :=
  execution_delete_ordering [['a', ' '], ['b']] (fun _ _ => true)
    [⟨0, ['a']⟩, ⟨1, [' ']⟩, ⟨2, ['b']⟩]
    [((-1 : Int), ['a']), ((0 : Int), [' ']), ((1 : Int), ['z', 'z']), ((0 : Int), ['b'])]
    [⟨some 1, ['z', 'z']⟩] [] (some 2) rfl rfl

theorem consumeEq_spec : ∀ (toks : List Token) (c : List Char) (a : Option Nat)
    (toks2 : List Token) (a2 : Option Nat), consumeEq toks c a = .ok (toks2, a2) →
    (a2 = a ∨ ∃ t ∈ toks, a2 = some t.index) ∧ ∀ t ∈ toks2, t ∈ toks := by
  intro toks
  induction toks with
  | nil =>
    intro c a toks2 a2 h
    simp only [consumeEq] at h
    cases h
    exact ⟨Or.inl rfl, by simp⟩
  | cons t ts ih =>
    intro c a toks2 a2 h
    cases c with
    | nil =>
      simp only [consumeEq] at h
      cases h
      exact ⟨Or.inl rfl, by simp⟩
    | cons x xs =>
      simp only [consumeEq] at h
      by_cases hp : t.text.isPrefixOf (x :: xs)
      · rw [if_pos hp] at h
        obtain ⟨ha, hsub⟩ := ih _ _ _ _ h
        constructor
        · rcases ha with ha | ⟨u, hu, ha⟩
          · exact Or.inr ⟨t, by simp, ha⟩
          · exact Or.inr ⟨u, List.mem_cons_of_mem _ hu, ha⟩
        · exact fun u hu => List.mem_cons_of_mem _ (hsub u hu)
      · rw [if_neg hp] at h
        cases h

theorem pass2_anchors : ∀ (diffs : List (Int × List Char)) (toks : List Token)
    (a : Option Nat) (ops : List InsOp) (tk : List Token) (an : Option Nat),
    collectInsertOps diffs toks a = .ok (ops, tk, an) →
    ∀ op ∈ ops, op.anchor = a ∨ ∃ t ∈ toks, op.anchor = some t.index := by
  intro diffs
  induction diffs with
  | nil =>
    intro toks a ops tk an h
    simp only [collectInsertOps] at h
    cases h
    simp
  | cons p rest ih =>
    intro toks a ops tk an h
    obtain ⟨o, chunk⟩ := p
    by_cases h0 : o = 0
    · subst h0
      simp only [collectInsertOps, if_pos rfl] at h
      cases hc : consumeEq toks chunk a with
      | error e => rw [hc] at h; cases h
      | ok r =>
        obtain ⟨toks2, a2⟩ := r
        rw [hc] at h
        obtain ⟨ha2, hsub⟩ := consumeEq_spec toks chunk a toks2 a2 hc
        intro op hop
        rcases ih toks2 a2 ops tk an h op hop with hopa | ⟨t, ht, hopa⟩
        · rcases ha2 with ha2 | ⟨u, hu, ha2⟩
          · exact Or.inl (hopa.trans ha2)
          · exact Or.inr ⟨u, hu, hopa.trans ha2⟩
        · exact Or.inr ⟨t, hsub t ht, hopa⟩
    · by_cases h1 : o = 1
      · subst h1
        simp only [collectInsertOps, if_neg h0, if_pos rfl] at h
        cases hr : collectInsertOps rest toks a with
        | error e => rw [hr] at h; cases h
        | ok r =>
          obtain ⟨ops2, tk2, an2⟩ := r
          rw [hr] at h
          cases h
          intro op hop
          rcases List.mem_cons.mp hop with hop | hop
          · subst hop
            exact Or.inl rfl
          · exact ih toks a ops2 _ _ hr op hop
      · simp only [collectInsertOps, if_neg h0, if_neg h1] at h
        exact ih toks a ops tk an h

theorem pass2_anchor_ne_none : ∀ (diffs : List (Int × List Char)) (toks : List Token)
    (a : Option Nat) (ops : List InsOp) (tk : List Token) (an : Option Nat),
    a ≠ none → collectInsertOps diffs toks a = .ok (ops, tk, an) →
    ∀ op ∈ ops, op.anchor ≠ none := by
  intro diffs toks a ops tk an ha h op hop
  rcases pass2_anchors diffs toks a ops tk an h op hop with h1 | ⟨t, -, h1⟩
  · rw [h1]; exact ha
  · rw [h1]; exact Option.some_ne_none _

theorem pass2_none_before_some : ∀ (diffs : List (Int × List Char)) (toks : List Token)
    (a : Option Nat) (ops : List InsOp) (tk : List Token) (an : Option Nat),
    collectInsertOps diffs toks a = .ok (ops, tk, an) →
    ops.Pairwise (fun o1 o2 => o1.anchor = none ∨ o2.anchor ≠ none) := by
  intro diffs
  induction diffs with
  | nil =>
    intro toks a ops tk an h
    simp only [collectInsertOps] at h
    cases h
    exact List.Pairwise.nil
  | cons p rest ih =>
    intro toks a ops tk an h
    obtain ⟨o, chunk⟩ := p
    by_cases h0 : o = 0
    · subst h0
      simp only [collectInsertOps, if_pos rfl] at h
      cases hc : consumeEq toks chunk a with
      | error e => rw [hc] at h; cases h
      | ok r =>
        obtain ⟨toks2, a2⟩ := r
        rw [hc] at h
        exact ih toks2 a2 ops tk an h
    · by_cases h1 : o = 1
      · subst h1
        simp only [collectInsertOps, if_neg h0, if_pos rfl] at h
        cases hr : collectInsertOps rest toks a with
        | error e => rw [hr] at h; cases h
        | ok r =>
          obtain ⟨ops2, tk2, an2⟩ := r
          rw [hr] at h
          cases h
          refine List.pairwise_cons.mpr ⟨?_, ih toks a ops2 _ _ hr⟩
          intro o2 ho2
          cases ha : a with
          | none => exact Or.inl rfl
          | some i =>
            refine Or.inr ?_
            exact pass2_anchor_ne_none rest toks a ops2 _ _ (by rw [ha]; simp) hr o2 ho2
      · simp only [collectInsertOps, if_neg h0, if_neg h1] at h
        exact ih toks a ops tk an h

/-- Claim C7: every Insert op produced by Pass 2 is anchored after the most
recently consumed surviving token — its anchor is the index of a token of
the surviving stream (never a deleted token), so the insertion lands at a
token boundary, never in the interior of a token — and an op anchored
before the start of the range (`anchor = none`) can only precede ops with a
token anchor: once a surviving token has been consumed, no later Insert op
reverts to the range start. -/
theorem insert_anchoring (diffs : List (Int × List Char)) (toks dels : List Token)
    (ops : List InsOp) (tk : List Token) (an : Option Nat)
    (hp : collectInsertOps diffs (survivingTokens toks dels) none = .ok (ops, tk, an)) :
    (∀ op ∈ ops, op.anchor = none
        ∨ ∃ t ∈ survivingTokens toks dels, op.anchor = some t.index
            ∧ (dels.map Token.index).contains t.index = false)
      ∧ ops.Pairwise (fun o1 o2 => o1.anchor = none ∨ o2.anchor ≠ none) := by
  constructor
  · intro op hop
    rcases pass2_anchors diffs _ none ops tk an hp op hop with h | ⟨t, ht, hidx⟩
    · exact Or.inl h
    · refine Or.inr ⟨t, ht, hidx, ?_⟩
      have := List.of_mem_filter ht
      simpa using this
  · exact pass2_none_before_some diffs _ none ops tk an hp

theorem insert_anchoring_witness :
    (∀ op ∈ ([⟨some 0, ['z']⟩] : List InsOp), op.anchor = none
        ∨ ∃ t ∈ survivingTokens [⟨0, [' ']⟩, ⟨1, ['b']⟩] [], op.anchor = some t.index
            ∧ ((([] : List Token).map Token.index).contains t.index) = false)
      ∧ ([⟨some 0, ['z']⟩] : List InsOp).Pairwise
          (fun o1 o2 => o1.anchor = none ∨ o2.anchor ≠ none) :=
  insert_anchoring [((0 : Int), [' ']), ((1 : Int), ['z'])]
    [⟨0, [' ']⟩, ⟨1, ['b']⟩] [] [⟨some 0, ['z']⟩] [⟨1, ['b']⟩] (some 0) rfl

/-- Claim C9: an empty (or whitespace-only) selection and an empty revised
text are rejected before any document mutation is attempted: the handler
reports an error, issues no mutation effect (no insert, no delete, no
change-tracking-mode change — queued requests of an aborted batch never
commit), and leaves the document state unchanged. -/
theorem input_error_rejection (st : AppState) (promptRaw selection : List Char)
    (llm : Except (List Char) (List Char)) (applyResult : DocState)
    (h : strTrim selection = [] ∨ llm = .ok ([] : List Char)) :
    (handleReviewSelection st promptRaw selection llm applyResult).1.doc = st.doc
      ∧ Effect.mutateDoc ∉ (handleReviewSelection st promptRaw selection llm applyResult).2.1
      ∧ (handleReviewSelection st promptRaw selection llm applyResult).2.2 = true := by
  rcases h with hsel | hllm
  · by_cases h1 : st.isProcessing
    · simp [handleReviewSelection, h1]
    · by_cases h2 : strTrim promptRaw = []
      · simp [handleReviewSelection, h1, h2]
      · simp [handleReviewSelection, h1, h2, hsel]
  · subst hllm
    by_cases h1 : st.isProcessing
    · simp [handleReviewSelection, h1]
    · by_cases h2 : strTrim promptRaw = []
      · simp [handleReviewSelection, h1, h2]
      · by_cases h3 : strTrim selection = []
        · simp [handleReviewSelection, h1, h2, h3]
        · simp [handleReviewSelection, h1, h2, h3, revisedTextRejected]

theorem input_error_rejection_witness :
    (handleReviewSelection ⟨false, ⟨['d'], false⟩⟩ ['p'] [' ']
          (.ok ['r']) ⟨[], false⟩).1.doc
        = (⟨false, ⟨['d'], false⟩⟩ : AppState).doc
      ∧ Effect.mutateDoc ∉ (handleReviewSelection ⟨false, ⟨['d'], false⟩⟩ ['p'] [' ']
          (.ok ['r']) ⟨[], false⟩).2.1
      ∧ (handleReviewSelection ⟨false, ⟨['d'], false⟩⟩ ['p'] [' ']
          (.ok ['r']) ⟨[], false⟩).2.2 = true :=
  input_error_rejection ⟨false, ⟨['d'], false⟩⟩ ['p'] [' '] (.ok ['r']) ⟨[], false⟩
    (Or.inl (by decide))

/-- Claim C10: the re-entrancy guard — an invocation that starts while
`isProcessing` is true returns immediately with the state unchanged and an
empty effect trace (no selection read, no LLM call, no queued mutation);
and every invocation that starts with `isProcessing` false ends with
`isProcessing` false again on every exit path, success or error, so at
most one review request mutates the document at a time. -/
theorem reentrancy_guard (st : AppState) (promptRaw selection : List Char)
    (llm : Except (List Char) (List Char)) (applyResult : DocState) :
    (st.isProcessing = true →
        handleReviewSelection st promptRaw selection llm applyResult = (st, [], true))
      ∧ (st.isProcessing = false →
        (handleReviewSelection st promptRaw selection llm applyResult).1.isProcessing
          = false) := by
  constructor
  · intro h
    unfold handleReviewSelection
    rw [h]
    simp
  · intro h
    by_cases h2 : strTrim promptRaw = []
    · simp [handleReviewSelection, h, h2]
    · by_cases h3 : strTrim selection = []
      · simp [handleReviewSelection, h, h2, h3]
      · cases llm with
        | error e => simp [handleReviewSelection, h, h2, h3]
        | ok r =>
          by_cases h4 : revisedTextRejected r
          · simp [handleReviewSelection, h, h2, h3, h4]
          · simp [handleReviewSelection, h, h2, h3, h4]

theorem reentrancy_guard_witness :
    (handleReviewSelection ⟨true, ⟨['d'], false⟩⟩ ['p'] ['s'] (.ok ['r']) ⟨[], false⟩
        = (⟨true, ⟨['d'], false⟩⟩, [], true))
      ∧ (handleReviewSelection ⟨false, ⟨['d'], false⟩⟩ ['p'] ['s']
          (.ok ['r']) ⟨[], false⟩).1.isProcessing = false :=
  ⟨(reentrancy_guard ⟨true, ⟨['d'], false⟩⟩ ['p'] ['s'] (.ok ['r']) ⟨[], false⟩).1 rfl,
   (reentrancy_guard ⟨false, ⟨['d'], false⟩⟩ ['p'] ['s'] (.ok ['r']) ⟨[], false⟩).2 rfl⟩

end Redliner
